import Mathlib

/-
Verification of the numerical core of a 1D Schrodinger shooting solver:
the Numerov propagator, the Simpson quadrature with endpoint correction,
the matching-point scan with branch stitching and normalization, and the
clamped secant search.  The embedding is stated over an arbitrary linear
ordered field so that the exact-arithmetic behaviour of the source can be
both proved about and evaluated on concrete inputs; the square root used
by the normalization step is passed as an explicit function parameter and
is instantiated with Real.sqrt where normalization facts are proved.
Arrays are modelled as functions from indices, paired with explicit
lengths where the source relies on them.
-/

variable {K : Type} [LinearOrderedField K]

/-- The Numerov recurrence, as a total function of the index: value 0 is
the seed u0, value 1 is the seed u1, and for i from 1 the next value is
u (i+1) = (c1 * u i - c0 * u (i-1) + d) / c2 with
c0 = 1 + g*q (i-1), c1 = 2 - 10*g*q i, c2 = 1 + g*q (i+1),
d = g*(s (i+1) + s (i-1) + 10*s i) and g = h*h/12. -/
def numerovFun (h : K) (q s : ℕ → K) (u0 u1 : K) : ℕ → K
  | 0 => u0
  | 1 => u1
  | i + 2 =>
      ((2 - 10*(h*h/12)*q (i+1)) * numerovFun h q s u0 u1 (i+1)
        - (1 + (h*h/12)*q i) * numerovFun h q s u0 u1 i
        + (h*h/12)*(s (i+2) + s i + 10*s (i+1)))
      / (1 + (h*h/12)*q (i+2))

/-- The Numerov integration routine: an array of length m whose entries
follow the Numerov recurrence, with q the coefficient array and s the
source array (the source passes an all-zero s when it is omitted). -/
def numerov (m : ℕ) (h : K) (q s : ℕ → K) (u0 u1 : K) : List K :=
  (List.range m).map (numerovFun h q s u0 u1)

/-- The evenly spaced Simpson rule of the source: len is the number of
samples of y that are in range (the length of the array in the source),
n = len - 1 is the index of the last sample; interior odd indices get
weight 4 and their two neighbours weight 1, and when the sample count
len = n+1 is even a three-point endpoint correction is added for the
final slice. -/
def simpson (y : ℕ → K) (len : ℕ) (h : K) : K :=
  let n := len - 1
  let s0 := ∑ j ∈ Finset.range (n / 2), y (2*j+1)
  let s1 := ∑ j ∈ Finset.range (n / 2), y (2*j)
  let s2 := ∑ j ∈ Finset.range (n / 2), y (2*j+2)
  let s := (s1 + 4*s0 + s2)/3
  if (n+1) % 2 = 0 then h*(s + (5*y n + 8*y (n-1) - y (n-2))/12) else h*s

/-- Evaluation of a polynomial of degree at most three. -/
def cubicEval (a b c d x : K) : K := a + b*x + c*x^2 + d*x^3

/-- A primitive (antiderivative) of cubicEval a b c d. -/
def cubicPrim (a b c d x : K) : K := a*x + b*x^2/2 + c*x^3/3 + d*x^4/4

/-- The exact integral of cubicEval a b c d over the interval from x0 to x1. -/
def cubicIntegral (a b c d x0 x1 : K) : K :=
  cubicPrim a b c d x1 - cubicPrim a b c d x0

/-- The sign function of numpy: -1 for negatives, 1 for positives, 0 at 0. -/
def npSign (x : K) : K := if x < 0 then -1 else if 0 < x then 1 else 0

/-- The clamped displacement of one secant step: the raw displacement a is
replaced by npSign a * min (abs a) (dx0/5), as in the source line
dx = np.sign(x1-x)*min(abs(x1-x), dx0/5). -/
def clampStep (dx0 a : K) : K := npSign a * min |a| (dx0/5)

/-- The mutable state of a Solver instance: the parsed potential table
(positions x_array, values V_array, length nx, spacing h) and the five
work arrays, all modelled as index functions. -/
structure SolverState (K : Type) where
  V_array : ℕ → K
  x_array : ℕ → K
  nx : ℕ
  h : K
  ul : ℕ → K
  ur : ℕ → K
  ql : ℕ → K
  qr : ℕ → K
  u : ℕ → K

/-- The state built by Solver.__init__ before the secant search runs:
parse_V extracts the value column, the position column, the length and
the spacing h = V[1,0] - V[0,0] from the table, and the five work arrays
are initialized to zeros of length nx. -/
def initState (V : ℕ → K × K) (len : ℕ) : SolverState K :=
  { V_array := fun i => (V i).2
    x_array := fun i => (V i).1
    nx := len
    h := (V 1).1 - (V 0).1
    ul := fun _ => 0
    ur := fun _ => 0
    ql := fun _ => 0
    qr := fun _ => 0
    u := fun _ => 0 }

/-- The scan loop of Solver.wave looking for the matching point: starting
at index i with the given fuel, return the first index at which
ql i * ql (i+1) < 0 and ql i > 0, or none if the fuel runs out. -/
def scanImGo (ql : ℕ → K) : ℕ → ℕ → Option ℕ
  | _, 0 => none
  | i, fuel + 1 =>
      if ql i * ql (i+1) < 0 ∧ 0 < ql i then some i
      else scanImGo ql (i+1) fuel

/-- The matching index chosen by Solver.wave: the first index i in
range (nx-1) with ql i * ql (i+1) < 0 and ql i > 0, defaulting to
int (nx/2) when the scan finds none. -/
def scanIm (ql : ℕ → K) (nx : ℕ) : ℕ :=
  (scanImGo ql 0 (nx - 1)).getD (nx / 2)

/-- The q function of a trial: ql = 2*(energy - V_array). -/
def waveQl (s : SolverState K) (energy : K) : ℕ → K :=
  fun i => 2 * (energy - s.V_array i)

/-- The reversed q function written by the loop qr[nx-i-1] = ql[i] for i
in range nx; entries past the array length keep the previous qr values. -/
def waveQr (s : SolverState K) (energy : K) : ℕ → K :=
  fun j => if j < s.nx then waveQl s energy (s.nx - 1 - j) else s.qr j

/-- The matching index of a trial energy. -/
def waveIm (s : SolverState K) (energy : K) : ℕ :=
  scanIm (waveQl s energy) s.nx

/-- The left branch as produced by numerov(nl, h, ql) with the default
seeds u0 = 0 and u1 = 0.01, before any rescaling, as an index function. -/
def waveUl0 (s : SolverState K) (energy : K) : ℕ → K :=
  numerovFun s.h (waveQl s energy) (fun _ => 0) 0 (1/100)

/-- The right branch as produced by numerov(nr, h, qr) with the default
seeds u0 = 0 and u1 = 0.01, as an index function. -/
def waveUr0 (s : SolverState K) (energy : K) : ℕ → K :=
  numerovFun s.h (waveQr s energy) (fun _ => 0) 0 (1/100)

/-- The rescaling factor of the left branch: ur[nr-2] / ul[im]. -/
def waveScale (s : SolverState K) (energy : K) : K :=
  waveUr0 s energy (s.nx - waveIm s energy + 1 - 2)
    / waveUl0 s energy (waveIm s energy)

/-- The left branch after the two in-place rescalings
ul[nl-1] *= ratio and ul[nl-3] *= ratio performed by Solver.wave. -/
def waveUlPost (s : SolverState K) (energy : K) : ℕ → K :=
  fun j =>
    if j = waveIm s energy + 2 - 1 ∨ j = waveIm s energy + 2 - 3 then
      waveScale s energy * waveUl0 s energy j
    else waveUl0 s energy j

/-- The stitched wavefunction before normalization: u[i] = ratio*ul[i]
for i in range im (using the pre-rescale left branch, as the source
rescales ul only after this loop), u[i+im] = ur[nr-i-2] for i in
range (nr-1), and untouched previous entries beyond. -/
def waveStitched (s : SolverState K) (energy : K) : ℕ → K :=
  fun j =>
    let im := waveIm s energy
    let nr := s.nx - im + 1
    if j < im then waveScale s energy * waveUl0 s energy j
    else if j < im + (nr - 1) then waveUr0 s energy (nr - (j - im) - 2)
    else s.u j

/-- The squared integral of the stitched wavefunction before
normalization: sum0 = simpson(u^2, h) over the nx samples. -/
def waveSum0 (s : SolverState K) (energy : K) : K :=
  simpson (fun j => (waveStitched s energy j)^2) s.nx s.h

/-- The normalized stitched wavefunction u / sqrt(sum0), with the square
root passed as the function sq. -/
def waveUFinal (sq : K → K) (s : SolverState K) (energy : K) : ℕ → K :=
  fun j => waveStitched s energy j / sq (waveSum0 s energy)

/-- Solver.wave: computes ql and qr, scans for the matching index, and
when im > 0 runs the two Numerov integrations, rescales the left branch,
stitches and normalizes the wavefunction; returns (nl, nr) together with
the updated state.  When im = 0 only ql and qr are updated. -/
def wave (sq : K → K) (s : SolverState K) (energy : K) :
    (ℕ × ℕ) × SolverState K :=
  let im := waveIm s energy
  let nl := im + 2
  let nr := s.nx - im + 1
  if 0 < im then
    ((nl, nr),
      { s with
        ql := waveQl s energy
        qr := waveQr s energy
        ul := waveUlPost s energy
        ur := waveUr0 s energy
        u := waveUFinal sq s energy })
  else
    ((nl, nr), { s with ql := waveQl s energy, qr := waveQr s energy })

/-- Solver.f: the mismatch objective for the root search.  It calls wave,
returns 0 when max(nr, nl) exceeds nx, and otherwise the discrete
logarithmic-derivative mismatch read off the post-wave branch arrays. -/
def fObj (sq : K → K) (s : SolverState K) (x : K) : K × SolverState K :=
  let r := wave sq s x
  let nl := r.1.1
  let nr := r.1.2
  let s1 := r.2
  if s1.nx < max nr nl then (0, s1)
  else
    ((s1.ur (nr-1) + s1.ul (nl-1) - s1.ur (nr-3) - s1.ul (nl-3))
      / (2*s1.h*s1.ur (nr-2)), s1)

/-- The secant loop of Solver.secant, threading the mutable solver state
through the three evaluations of f per iteration (the source evaluates
self.f(x1), then self.f(x), then self.f(x1) again) and counting the
iterations performed.  The fuel argument models the remaining budget
n - k; when it is 0 or the displacement dx is within tolerance, the
current x1 is returned. -/
def secantGo {σ : Type} (f : σ → K → K × σ) (dt dx0 : K) :
    ℕ → σ → K → K → K → ℕ → K × σ × ℕ
  | 0, st, _, x1, _, cnt => (x1, st, cnt)
  | fuel + 1, st, x, x1, dx, cnt =>
      if dt < |dx| then
        let p1 := f st x1
        let p2 := f p1.2 x
        let d := p1.1 - p2.1
        let p3 := f p2.2 x1
        let x2 := x1 - p3.1 * (x1 - x) / d
        let dx2 := clampStep dx0 (x2 - x1)
        secantGo f dt dx0 fuel p3.2 x1 (x1 + dx2) dx2 (cnt + 1)
      else (x1, st, cnt)

/-- Solver.secant: seeds the iteration with dx = dx0/10 and x1 = x + dx,
then runs the secant loop for at most n iterations.  Returns the final
x1, the final state and the number of iterations performed. -/
def secant {σ : Type} (f : σ → K → K × σ) (n : ℕ) (dt x dx0 : K)
    (st : σ) : K × σ × ℕ :=
  secantGo f dt dx0 n st x (x + dx0/10) (dx0/10) 0

/-- Solver.get_level: the number of adjacent sign changes of the stored
wavefunction u over the nx samples. -/
def get_level (s : SolverState K) : ℕ :=
  ((Finset.range (s.nx - 1)).filter (fun i => s.u i * s.u (i+1) < 0)).card

/-- Solver.__init__: parse the table, zero the work arrays, run the
secant search on f to obtain the eigenvalue and the final state, then
count the quantum level.  Returns (eigenvalue, final state, level). -/
def mkSolver (sq : K → K) (V : ℕ → K × K) (len : ℕ) (e : K) (ni : ℕ)
    (de_max e_tol : K) : K × SolverState K × ℕ :=
  let s0 : SolverState K := initState V len
  let r := secant (fObj sq) ni e_tol e de_max s0
  (r.1, r.2.1, get_level r.2.1)

/-- The first Numerov value is the seed u0. -/
theorem numerovFun_zero (h : K) (q s : ℕ → K) (u0 u1 : K) :
    numerovFun h q s u0 u1 0 = u0 := rfl

/-- The second Numerov value is the seed u1. -/
theorem numerovFun_one (h : K) (q s : ℕ → K) (u0 u1 : K) :
    numerovFun h q s u0 u1 1 = u1 := rfl

/-- The unfolding of the Numerov recurrence at index i+2. -/
theorem numerovFun_add_two (h : K) (q s : ℕ → K) (u0 u1 : K) (i : ℕ) :
    numerovFun h q s u0 u1 (i+2) =
      ((2 - 10*(h*h/12)*q (i+1)) * numerovFun h q s u0 u1 (i+1)
        - (1 + (h*h/12)*q i) * numerovFun h q s u0 u1 i
        + (h*h/12)*(s (i+2) + s i + 10*s (i+1)))
      / (1 + (h*h/12)*q (i+2)) := rfl

/-- In-range entries of the numerov array are the Numerov recurrence values. -/
theorem numerov_getD (m : ℕ) (h : K) (q s : ℕ → K) (u0 u1 : K) (j : ℕ)
    (hj : j < m) :
    (numerov m h q s u0 u1).getD j 0 = numerovFun h q s u0 u1 j := by
  simp [numerov, List.getD_eq_getElem?_getD, List.getElem?_map,
    List.getElem?_range, hj]

/-- C2: numerov m h q s u0 u1 returns an array of length m whose first two
entries are the seeds u0 and u1, and whose remaining entries follow the
Numerov recurrence u[i+1] = (c1*u[i] - c0*u[i-1] + d)/c2 with
c0 = 1 + (h^2/12)*q[i-1], c1 = 2 - 10*(h^2/12)*q[i],
c2 = 1 + (h^2/12)*q[i+1] and d = (h^2/12)*(s[i+1] + s[i-1] + 10*s[i]),
for every i in 1..m-2. -/
theorem numerov_spec (m : ℕ) (h : K) (q s : ℕ → K) (u0 u1 : K)
    (hm : 2 ≤ m) :
    (numerov m h q s u0 u1).length = m ∧
    (numerov m h q s u0 u1).getD 0 0 = u0 ∧
    (numerov m h q s u0 u1).getD 1 0 = u1 ∧
    ∀ i : ℕ, 1 ≤ i → i ≤ m - 2 →
      (numerov m h q s u0 u1).getD (i+1) 0 =
        ((2 - 10*(h^2/12)*q i) * (numerov m h q s u0 u1).getD i 0
          - (1 + (h^2/12)*q (i-1)) * (numerov m h q s u0 u1).getD (i-1) 0
          + (h^2/12)*(s (i+1) + s (i-1) + 10*s i))
        / (1 + (h^2/12)*q (i+1)) := by
  refine ⟨by simp [numerov], ?_, ?_, ?_⟩
  · rw [numerov_getD m h q s u0 u1 0 (by omega)]; rfl
  · rw [numerov_getD m h q s u0 u1 1 (by omega)]; rfl
  · intro i h1 h2
    obtain ⟨i0, rfl⟩ : ∃ i0, i = i0 + 1 := ⟨i - 1, by omega⟩
    rw [numerov_getD m h q s u0 u1 (i0+1+1) (by omega),
      numerov_getD m h q s u0 u1 (i0+1) (by omega),
      numerov_getD m h q s u0 u1 (i0+1-1) (by omega)]
    simp only [Nat.add_sub_cancel]
    rw [show i0+1+1 = i0+2 from rfl, numerovFun_add_two]
    ring_nf

/-- Witness for C2 at a concrete instance. -/
theorem numerov_spec_witness :
    (numerov 3 (1:ℚ) (fun _ => 0) (fun _ => 0) 0 1).length = 3 ∧
    (numerov 3 (1:ℚ) (fun _ => 0) (fun _ => 0) 0 1).getD 0 0 = 0 ∧
    (numerov 3 (1:ℚ) (fun _ => 0) (fun _ => 0) 0 1).getD 1 0 = 1 ∧
    ∀ i : ℕ, 1 ≤ i → i ≤ 3 - 2 →
      (numerov 3 (1:ℚ) (fun _ => 0) (fun _ => 0) 0 1).getD (i+1) 0 =
        ((2 - 10*((1:ℚ)^2/12)*(fun _ => (0:ℚ)) i)
            * (numerov 3 (1:ℚ) (fun _ => 0) (fun _ => 0) 0 1).getD i 0
          - (1 + ((1:ℚ)^2/12)*(fun _ => (0:ℚ)) (i-1))
            * (numerov 3 (1:ℚ) (fun _ => 0) (fun _ => 0) 0 1).getD (i-1) 0
          + ((1:ℚ)^2/12)*((fun _ => (0:ℚ)) (i+1) + (fun _ => (0:ℚ)) (i-1)
            + 10*(fun _ => (0:ℚ)) i))
        / (1 + ((1:ℚ)^2/12)*(fun _ => (0:ℚ)) (i+1)) :=
  numerov_spec 3 1 (fun _ => 0) (fun _ => 0) 0 1 (by norm_num)

/-- When the scan loop fails, no index in the scanned window matches. -/
theorem scanImGo_eq_none (ql : ℕ → K) :
    ∀ fuel i, scanImGo ql i fuel = none →
      ∀ k, i ≤ k → k < i + fuel → ¬(ql k * ql (k+1) < 0 ∧ 0 < ql k) := by
  intro fuel
  induction fuel with
  | zero => intro i _ k hk1 hk2; omega
  | succ f ih =>
    intro i hnone k hk1 hk2
    rw [scanImGo] at hnone
    by_cases hP : ql i * ql (i+1) < 0 ∧ 0 < ql i
    · simp [hP] at hnone
    · rcases Nat.eq_or_lt_of_le hk1 with rfl | hlt
      · exact hP
      · rw [if_neg hP] at hnone
        exact ih (i+1) hnone k hlt (by omega)

/-- When the scan loop succeeds, it returns the first matching index of
the scanned window. -/
theorem scanImGo_eq_some (ql : ℕ → K) :
    ∀ fuel i j, scanImGo ql i fuel = some j →
      i ≤ j ∧ j < i + fuel ∧ (ql j * ql (j+1) < 0 ∧ 0 < ql j) ∧
      ∀ k, i ≤ k → k < j → ¬(ql k * ql (k+1) < 0 ∧ 0 < ql k) := by
  intro fuel
  induction fuel with
  | zero => intro i j hsome; simp [scanImGo] at hsome
  | succ f ih =>
    intro i j hsome
    rw [scanImGo] at hsome
    by_cases hP : ql i * ql (i+1) < 0 ∧ 0 < ql i
    · rw [if_pos hP] at hsome
      obtain rfl : i = j := by simpa using hsome
      exact ⟨le_refl _, by omega, hP, fun k hk1 hk2 => by omega⟩
    · rw [if_neg hP] at hsome
      obtain ⟨h1, h2, h3, h4⟩ := ih (i+1) j hsome
      refine ⟨by omega, by omega, h3, ?_⟩
      intro k hk1 hk2
      rcases Nat.eq_or_lt_of_le hk1 with rfl | hlt
      · exact hP
      · exact h4 k hlt hk2

/-- The scanned matching index equals a given index that matches and is
minimal among the scanned window. -/
theorem scanIm_eq_of (ql : ℕ → K) (nx j : ℕ) (hj : j < nx - 1)
    (hP : ql j * ql (j+1) < 0 ∧ 0 < ql j)
    (hmin : ∀ k, k < j → ¬(ql k * ql (k+1) < 0 ∧ 0 < ql k)) :
    scanIm ql nx = j := by
  unfold scanIm
  rcases hgo : scanImGo ql 0 (nx - 1) with _ | j2
  · exact absurd hP (scanImGo_eq_none ql (nx-1) 0 hgo j (by omega) (by omega))
  · obtain ⟨_, _, h3, h4⟩ := scanImGo_eq_some ql (nx-1) 0 j2 hgo
    rcases lt_trichotomy j2 j with hlt | rfl | hgt
    · exact absurd h3 (hmin j2 hlt)
    · rfl
    · exact absurd hP (h4 j (by omega) hgt)

/-- The scanned matching index defaults to nx/2 when no index of the
window matches. -/
theorem scanIm_eq_default (ql : ℕ → K) (nx : ℕ)
    (hnone : ∀ i, i < nx - 1 → ¬(ql i * ql (i+1) < 0 ∧ 0 < ql i)) :
    scanIm ql nx = nx / 2 := by
  unfold scanIm
  rcases hgo : scanImGo ql 0 (nx - 1) with _ | j2
  · rfl
  · obtain ⟨_, h2, h3, _⟩ := scanImGo_eq_some ql (nx-1) 0 j2 hgo
    exact absurd h3 (hnone j2 (by omega))

/-- The matching index never exceeds max (nx-2) (nx/2): the scan only
returns window indices and the default is the midpoint. -/
theorem waveIm_le (s : SolverState K) (e : K) :
    waveIm s e ≤ max (s.nx - 2) (s.nx / 2) := by
  unfold waveIm scanIm
  rcases hgo : scanImGo (waveQl s e) 0 (s.nx - 1) with _ | j
  · simp
  · obtain ⟨_, h2, _, _⟩ := scanImGo_eq_some (waveQl s e) (s.nx-1) 0 j hgo
    simp only [Option.getD_some]
    omega

/-- The pair returned by wave is (nl, nr) = (im+2, nx-im+1). -/
theorem wave_fst (sq : K → K) (s : SolverState K) (e : K) :
    (wave sq s e).1 = (waveIm s e + 2, s.nx - waveIm s e + 1) := by
  unfold wave
  by_cases him : 0 < waveIm s e <;> simp [him]

/-- The state returned by wave when the matching index is positive. -/
theorem wave_snd_of_pos (sq : K → K) (s : SolverState K) (e : K)
    (him : 0 < waveIm s e) :
    (wave sq s e).2 =
      { s with
        ql := waveQl s e
        qr := waveQr s e
        ul := waveUlPost s e
        ur := waveUr0 s e
        u := waveUFinal sq s e } := by
  unfold wave
  simp [him]

/-- The state returned by wave when the matching index is zero. -/
theorem wave_snd_of_zero (sq : K → K) (s : SolverState K) (e : K)
    (him : waveIm s e = 0) :
    (wave sq s e).2 = { s with ql := waveQl s e, qr := waveQr s e } := by
  unfold wave
  simp [him]

/-- C4: the matching index is the first index i with
ql i * ql (i+1) < 0 and ql i > 0 when one exists in the scanned window,
defaults to nx/2 otherwise, wave returns nl = im+2 and nr = nx-im+1, and
nl + nr - 3 = nx on every trial. -/
theorem wave_matching_index_spec (sq : K → K) (s : SolverState K) (e : K) :
    ((∃ i, i < s.nx - 1 ∧ (waveQl s e i * waveQl s e (i+1) < 0 ∧
        0 < waveQl s e i)) →
      (waveIm s e < s.nx - 1 ∧
       (waveQl s e (waveIm s e) * waveQl s e (waveIm s e + 1) < 0 ∧
        0 < waveQl s e (waveIm s e)) ∧
       ∀ k, k < waveIm s e → ¬(waveQl s e k * waveQl s e (k+1) < 0 ∧
        0 < waveQl s e k))) ∧
    ((∀ i, i < s.nx - 1 → ¬(waveQl s e i * waveQl s e (i+1) < 0 ∧
        0 < waveQl s e i)) →
      waveIm s e = s.nx / 2) ∧
    (wave sq s e).1 = (waveIm s e + 2, s.nx - waveIm s e + 1) ∧
    (waveIm s e + 2) + (s.nx - waveIm s e + 1) - 3 = s.nx := by
  refine ⟨?_, ?_, wave_fst sq s e, ?_⟩
  · rintro ⟨i, hi, hPi⟩
    unfold waveIm scanIm
    rcases hgo : scanImGo (waveQl s e) 0 (s.nx - 1) with _ | j
    · exact absurd hPi
        (scanImGo_eq_none (waveQl s e) (s.nx-1) 0 hgo i (by omega) (by omega))
    · obtain ⟨_, h2, h3, h4⟩ :=
        scanImGo_eq_some (waveQl s e) (s.nx-1) 0 j hgo
      exact ⟨by simpa using h2, by simpa using h3,
        fun k hk => h4 k (by omega) (by simpa using hk)⟩
  · intro hnone
    exact scanIm_eq_default (waveQl s e) s.nx hnone
  · have := waveIm_le s e
    omega

/-- A concrete potential table state on four grid points with spacing 1
and values -1, -1, 1, 1; at energy 0 the turning-point scan matches at
index 1. -/
def exState4 : SolverState ℚ :=
  { V_array := fun i => if i ≤ 1 then -1 else 1
    x_array := fun i => (i : ℚ)
    nx := 4
    h := 1
    ul := fun _ => 0
    ur := fun _ => 0
    ql := fun _ => 0
    qr := fun _ => 0
    u := fun _ => 0 }

/-- Witness for C4 at a concrete instance. -/
theorem wave_matching_index_spec_witness :
    ((∃ i, i < exState4.nx - 1 ∧ (waveQl exState4 0 i * waveQl exState4 0 (i+1) < 0 ∧
        0 < waveQl exState4 0 i)) →
      (waveIm exState4 0 < exState4.nx - 1 ∧
       (waveQl exState4 0 (waveIm exState4 0) * waveQl exState4 0 (waveIm exState4 0 + 1) < 0 ∧
        0 < waveQl exState4 0 (waveIm exState4 0)) ∧
       ∀ k, k < waveIm exState4 0 → ¬(waveQl exState4 0 k * waveQl exState4 0 (k+1) < 0 ∧
        0 < waveQl exState4 0 k))) ∧
    ((∀ i, i < exState4.nx - 1 → ¬(waveQl exState4 0 i * waveQl exState4 0 (i+1) < 0 ∧
        0 < waveQl exState4 0 i)) →
      waveIm exState4 0 = exState4.nx / 2) ∧
    (wave (fun x => x) exState4 0).1 =
      (waveIm exState4 0 + 2, exState4.nx - waveIm exState4 0 + 1) ∧
    (waveIm exState4 0 + 2) + (exState4.nx - waveIm exState4 0 + 1) - 3 =
      exState4.nx :=
  wave_matching_index_spec (fun x => x) exState4 0

/-- The secant loop performs at most as many iterations as it has fuel. -/
theorem secantGo_count_le {σ : Type} (f : σ → K → K × σ) (dt dx0 : K) :
    ∀ fuel st x x1 dx cnt,
      (secantGo f dt dx0 fuel st x x1 dx cnt).2.2 ≤ cnt + fuel := by
  intro fuel
  induction fuel with
  | zero => intro st x x1 dx cnt; simp [secantGo]
  | succ n ih =>
    intro st x x1 dx cnt
    rw [secantGo]
    by_cases hdx : dt < |dx|
    · rw [if_pos hdx]
      calc (secantGo f dt dx0 n _ x1 _ _ (cnt+1)).2.2 ≤ (cnt+1) + n :=
            ih _ x1 _ _ (cnt+1)
        _ = cnt + (n+1) := by omega
    · rw [if_neg hdx]; simp

/-- The secant loop returns the current x1, the current state and the
current count as soon as the displacement is within tolerance. -/
theorem secantGo_exit {σ : Type} (f : σ → K → K × σ) (dt dx0 : K)
    (fuel : ℕ) (st : σ) (x x1 dx : K) (cnt : ℕ) (h : |dx| ≤ dt) :
    secantGo f dt dx0 fuel st x x1 dx cnt = (x1, st, cnt) := by
  cases fuel with
  | zero => rfl
  | succ n => rw [secantGo, if_neg (not_lt.2 h)]

/-- The magnitude of a clamped secant step never exceeds dx0/5. -/
theorem clampStep_abs_le (dx0 a : K) (h : 0 < dx0) :
    |clampStep dx0 a| ≤ dx0/5 := by
  have hmin : min |a| (dx0/5) ≤ dx0/5 := min_le_right _ _
  have hmin0 : 0 ≤ min |a| (dx0/5) := le_min (abs_nonneg a) (by positivity)
  unfold clampStep npSign
  split_ifs with h1 h2
  · rw [neg_one_mul, abs_neg, abs_of_nonneg hmin0]; exact hmin
  · rw [one_mul, abs_of_nonneg hmin0]; exact hmin
  · rw [zero_mul, abs_zero]; positivity

/-- The clamped secant step preserves the sign of the raw displacement. -/
theorem clampStep_npSign (dx0 a : K) (h : 0 < dx0) :
    npSign (clampStep dx0 a) = npSign a := by
  have h5 : 0 < dx0/5 := by positivity
  rcases lt_trichotomy a 0 with h1 | rfl | h1
  · have hm : 0 < min |a| (dx0/5) := lt_min (abs_pos.2 h1.ne) h5
    have hcs : clampStep dx0 a < 0 := by
      simp only [clampStep, npSign, if_pos h1]; nlinarith
    simp only [npSign, if_pos hcs, if_pos h1]
  · have hcs : clampStep dx0 (0 : K) = 0 := by simp [clampStep, npSign]
    simp [npSign, hcs]
  · have hm : 0 < min |a| (dx0/5) := lt_min (abs_pos.2 h1.ne') h5
    have h1' : ¬ a < 0 := not_lt.2 h1.le
    have hcs : clampStep dx0 a = min |a| (dx0/5) := by
      simp [clampStep, npSign, h1', h1]
    rw [hcs]
    simp [npSign, not_lt.2 hm.le, hm, h1', h1]

/-- C5: secant starts from the seed x1 = x + dx0/10, performs at most n
updates (so it terminates for every f), clamps each step to magnitude at
most dx0/5 preserving its sign, and returns the current x1 as soon as
the displacement is within the tolerance dt or the budget is
exhausted. -/
theorem secant_spec {σ : Type} (f : σ → K → K × σ) (n : ℕ) (dt x dx0 : K)
    (st : σ) (hdx0 : 0 < dx0) :
    secant f n dt x dx0 st =
      secantGo f dt dx0 n st x (x + dx0/10) (dx0/10) 0 ∧
    (secant f n dt x dx0 st).2.2 ≤ n ∧
    (|dx0/10| ≤ dt → secant f n dt x dx0 st = (x + dx0/10, st, 0)) ∧
    (∀ a, |clampStep dx0 a| ≤ dx0/5 ∧
      npSign (clampStep dx0 a) = npSign a) ∧
    (∀ st2 x2 x1 dx cnt, secantGo f dt dx0 0 st2 x2 x1 dx cnt =
      (x1, st2, cnt)) ∧
    (∀ fuel st2 x2 x1 dx cnt, |dx| ≤ dt →
      secantGo f dt dx0 fuel st2 x2 x1 dx cnt = (x1, st2, cnt)) := by
  refine ⟨rfl, ?_, ?_, ?_, ?_, ?_⟩
  · have := secantGo_count_le f dt dx0 n st x (x + dx0/10) (dx0/10) 0
    simpa [secant] using this
  · intro htol
    unfold secant
    exact secantGo_exit f dt dx0 n st x (x + dx0/10) (dx0/10) 0 htol
  · intro a
    exact ⟨clampStep_abs_le dx0 a hdx0, clampStep_npSign dx0 a hdx0⟩
  · intro st2 x2 x1 dx cnt; rfl
  · intro fuel st2 x2 x1 dx cnt hle
    exact secantGo_exit f dt dx0 fuel st2 x2 x1 dx cnt hle

/-- Witness for C5 at a concrete instance. -/
theorem secant_spec_witness :
    secant (fun (u : Unit) (y : ℚ) => (y, u)) 1 1 0 1 () =
      secantGo (fun (u : Unit) (y : ℚ) => (y, u)) 1 1 1 () 0
        (0 + 1/10) (1/10) 0 ∧
    (secant (fun (u : Unit) (y : ℚ) => (y, u)) 1 1 0 1 ()).2.2 ≤ 1 ∧
    (|(1:ℚ)/10| ≤ 1 → secant (fun (u : Unit) (y : ℚ) => (y, u)) 1 1 0 1 () =
      (0 + 1/10, (), 0)) ∧
    (∀ a : ℚ, |clampStep 1 a| ≤ 1/5 ∧
      npSign (clampStep 1 a) = npSign a) ∧
    (∀ (st2 : Unit) (x2 x1 dx : ℚ) (cnt : ℕ),
      secantGo (fun (u : Unit) (y : ℚ) => (y, u)) 1 1 0 st2 x2 x1 dx cnt =
        (x1, st2, cnt)) ∧
    (∀ (fuel : ℕ) (st2 : Unit) (x2 x1 dx : ℚ) (cnt : ℕ), |dx| ≤ 1 →
      secantGo (fun (u : Unit) (y : ℚ) => (y, u)) 1 1 fuel st2 x2 x1 dx cnt =
        (x1, st2, cnt)) :=
  secant_spec (fun (u : Unit) (y : ℚ) => (y, u)) 1 1 0 1 () (by norm_num)

/-- Wave does not change the potential value column. -/
theorem wave_V_array (sq : K → K) (s : SolverState K) (e : K) :
    ((wave sq s e).2).V_array = s.V_array := by
  unfold wave; by_cases him : 0 < waveIm s e <;> simp [him]

/-- Wave does not change the position column. -/
theorem wave_x_array (sq : K → K) (s : SolverState K) (e : K) :
    ((wave sq s e).2).x_array = s.x_array := by
  unfold wave; by_cases him : 0 < waveIm s e <;> simp [him]

/-- Wave does not change the grid length. -/
theorem wave_nx (sq : K → K) (s : SolverState K) (e : K) :
    ((wave sq s e).2).nx = s.nx := by
  unfold wave; by_cases him : 0 < waveIm s e <;> simp [him]

/-- Wave does not change the grid spacing. -/
theorem wave_h (sq : K → K) (s : SolverState K) (e : K) :
    ((wave sq s e).2).h = s.h := by
  unfold wave; by_cases him : 0 < waveIm s e <;> simp [him]

/-- The state after the mismatch objective is the state after wave. -/
theorem fObj_snd (sq : K → K) (s : SolverState K) (x : K) :
    (fObj sq s x).2 = (wave sq s x).2 := by
  simp only [fObj]
  split <;> rfl

/-- The secant loop preserves every projection of the state that each
evaluation of f preserves. -/
theorem secantGo_preserves {σ α : Type} (f : σ → K → K × σ) (g : σ → α)
    (hf : ∀ st x, g (f st x).2 = g st) (dt dx0 : K) :
    ∀ fuel st x x1 dx cnt,
      g (secantGo f dt dx0 fuel st x x1 dx cnt).2.1 = g st := by
  intro fuel
  induction fuel with
  | zero => intro st x x1 dx cnt; rfl
  | succ n ih =>
    intro st x x1 dx cnt
    rw [secantGo]
    by_cases hdx : dt < |dx|
    · rw [if_pos hdx]
      rw [ih]
      simp [hf]
    · rw [if_neg hdx]

/-- C8: no operation of the core mutates the potential table: the final
state of the constructed solver carries exactly the input positions and
values, and both wave and the mismatch objective leave the table columns
of the state unchanged. -/
theorem core_preserves_potential (sq : K → K) (V : ℕ → K × K) (len : ℕ)
    (e : K) (ni : ℕ) (de_max e_tol : K) :
    (∀ i, ((mkSolver sq V len e ni de_max e_tol).2.1).V_array i = (V i).2 ∧
          ((mkSolver sq V len e ni de_max e_tol).2.1).x_array i = (V i).1) ∧
    (∀ (s : SolverState K) (x : K), ((wave sq s x).2).V_array = s.V_array ∧
          ((wave sq s x).2).x_array = s.x_array) ∧
    (∀ (s : SolverState K) (x : K), ((fObj sq s x).2).V_array = s.V_array ∧
          ((fObj sq s x).2).x_array = s.x_array) := by
  have hfV : ∀ (s : SolverState K) (x : K),
      ((fObj sq s x).2).V_array = s.V_array := by
    intro s x; rw [fObj_snd, wave_V_array]
  have hfx : ∀ (s : SolverState K) (x : K),
      ((fObj sq s x).2).x_array = s.x_array := by
    intro s x; rw [fObj_snd, wave_x_array]
  refine ⟨?_, fun s x => ⟨wave_V_array sq s x, wave_x_array sq s x⟩,
    fun s x => ⟨hfV s x, hfx s x⟩⟩
  intro i
  have hV := secantGo_preserves (fObj sq) SolverState.V_array hfV
    e_tol de_max ni (initState V len) e (e + de_max/10) (de_max/10) 0
  have hx := secantGo_preserves (fObj sq) SolverState.x_array hfx
    e_tol de_max ni (initState V len) e (e + de_max/10) (de_max/10) 0
  constructor
  · show ((secant (fObj sq) ni e_tol e de_max (initState V len)).2.1).V_array i
      = (V i).2
    rw [show secant (fObj sq) ni e_tol e de_max (initState V len) =
      secantGo (fObj sq) e_tol de_max ni (initState V len) e
        (e + de_max/10) (de_max/10) 0 from rfl, hV]
    rfl
  · show ((secant (fObj sq) ni e_tol e de_max (initState V len)).2.1).x_array i
      = (V i).1
    rw [show secant (fObj sq) ni e_tol e de_max (initState V len) =
      secantGo (fObj sq) e_tol de_max ni (initState V len) e
        (e + de_max/10) (de_max/10) 0 from rfl, hx]
    rfl

/-- On a grid of at least four points the matching index never exceeds
nx - 2: a scanned index is below nx - 1 and the midpoint default
satisfies nx/2 <= nx - 2. -/
theorem waveIm_le_sub_two (s : SolverState K) (e : K) (h4 : 4 ≤ s.nx) :
    waveIm s e ≤ s.nx - 2 := by
  have := waveIm_le s e
  omega

/-- C9: on a grid of at least four points, the branch-overrun test
max(nr, nl) > nx of the mismatch objective holds exactly when the
matching index is zero, and in that case wave leaves ul, ur and u
untouched. -/
theorem wave_overrun_iff_im_zero (sq : K → K) (s : SolverState K) (e : K)
    (h4 : 4 ≤ s.nx) :
    (s.nx < max (s.nx - waveIm s e + 1) (waveIm s e + 2) ↔
      waveIm s e = 0) ∧
    (waveIm s e = 0 →
      (wave sq s e).2.ul = s.ul ∧ (wave sq s e).2.ur = s.ur ∧
      (wave sq s e).2.u = s.u) := by
  have hle := waveIm_le_sub_two s e h4
  constructor
  · constructor
    · intro hover
      by_contra h0
      have h1 : 1 ≤ waveIm s e := by omega
      have : max (s.nx - waveIm s e + 1) (waveIm s e + 2) ≤ s.nx := by
        apply max_le <;> omega
      omega
    · intro h0
      rw [h0]
      simp
  · intro h0
    rw [wave_snd_of_zero sq s e h0]
    exact ⟨rfl, rfl, rfl⟩

/-- Witness for C9 at a concrete instance. -/
theorem wave_overrun_iff_im_zero_witness :
    (exState4.nx < max (exState4.nx - waveIm exState4 0 + 1)
        (waveIm exState4 0 + 2) ↔ waveIm exState4 0 = 0) ∧
    (waveIm exState4 0 = 0 →
      (wave (fun x => x) exState4 0).2.ul = exState4.ul ∧
      (wave (fun x => x) exState4 0).2.ur = exState4.ur ∧
      (wave (fun x => x) exState4 0).2.u = exState4.u) :=
  wave_overrun_iff_im_zero (fun x => x) exState4 0 (by norm_num [exState4])

/-- The level count of the all-zero wavefunction is zero. -/
theorem get_level_initState (V : ℕ → K × K) (len : ℕ) :
    get_level (initState V len) = 0 := by
  simp [get_level, initState]

/-- C10: when the magnitude of the seed displacement de_max/10 is within
the tolerance e_tol, the secant loop performs no iteration (hence never
evaluates f), and the constructed solver reports eigenvalue
e + de_max/10, keeps the all-zero initial wavefunction, and reports
quantum level 0. -/
theorem solver_trivial_when_seed_within_tol (sq : K → K) (V : ℕ → K × K)
    (len : ℕ) (e : K) (ni : ℕ) (de_max e_tol : K)
    (htol : |de_max/10| ≤ e_tol) :
    (secant (fObj sq) ni e_tol e de_max (initState V len)).2.2 = 0 ∧
    (secant (fObj sq) ni e_tol e de_max (initState V len)).2.1 =
      initState V len ∧
    (mkSolver sq V len e ni de_max e_tol).1 = e + de_max/10 ∧
    (∀ j, ((mkSolver sq V len e ni de_max e_tol).2.1).u j = 0) ∧
    (mkSolver sq V len e ni de_max e_tol).2.2 = 0 := by
  have hsec : secant (fObj sq) ni e_tol e de_max (initState V len) =
      (e + de_max/10, initState V len, 0) :=
    secantGo_exit (fObj sq) e_tol de_max ni (initState V len) e
      (e + de_max/10) (de_max/10) 0 htol
  have hmk : mkSolver sq V len e ni de_max e_tol =
      (e + de_max/10, initState V len,
        get_level (initState V len : SolverState K)) := by
    simp only [mkSolver]
    rw [hsec]
  refine ⟨by rw [hsec], by rw [hsec], by rw [hmk], ?_, ?_⟩
  · intro j
    rw [hmk]
    rfl
  · rw [hmk]
    exact get_level_initState V len

/-- Witness for C10 at a concrete instance. -/
theorem solver_trivial_when_seed_within_tol_witness :
    (secant (fObj (fun x => x)) 100 1 0 (1/10)
        (initState (fun i => ((i : ℚ), 0)) 4)).2.2 = 0 ∧
    (secant (fObj (fun x => x)) 100 1 0 (1/10)
        (initState (fun i => ((i : ℚ), 0)) 4)).2.1 =
      initState (fun i => ((i : ℚ), 0)) 4 ∧
    (mkSolver (fun x => x) (fun i => ((i : ℚ), 0)) 4 0 100 (1/10) 1).1 =
      0 + (1/10)/10 ∧
    (∀ j, ((mkSolver (fun x => x) (fun i => ((i : ℚ), 0)) 4 0 100
        (1/10) 1).2.1).u j = 0) ∧
    (mkSolver (fun x => x) (fun i => ((i : ℚ), 0)) 4 0 100 (1/10) 1).2.2 =
      0 :=
  solver_trivial_when_seed_within_tol (fun x => x) (fun i => ((i : ℚ), 0))
    4 0 100 (1/10) 1 (by rw [abs_le]; constructor <;> norm_num)

/-- C3: the mismatch objective first runs wave; when max(nr, nl) exceeds
the grid length it returns 0, and otherwise it returns
(ur[nr-1] + ul[nl-1] - ur[nr-3] - ul[nl-3]) / (2*h*ur[nr-2]) computed
from the branch arrays exactly as wave left them, the left branch taken
after the rescaling of ul[nl-1] and ul[nl-3]. -/
theorem f_overrun_or_mismatch (sq : K → K) (s : SolverState K) (x : K) :
    (fObj sq s x).1 =
      if s.nx < max (s.nx - waveIm s x + 1) (waveIm s x + 2) then 0
      else
        (waveUr0 s x (s.nx - waveIm s x + 1 - 1) +
          waveUlPost s x (waveIm s x + 2 - 1) -
          waveUr0 s x (s.nx - waveIm s x + 1 - 3) -
          waveUlPost s x (waveIm s x + 2 - 3))
        / (2 * s.h * waveUr0 s x (s.nx - waveIm s x + 1 - 2)) := by
  have hfst := wave_fst sq s x
  have hnx := wave_nx sq s x
  simp only [fObj, hfst, hnx]
  by_cases hc : s.nx < max (s.nx - waveIm s x + 1) (waveIm s x + 2)
  · simp [hc]
  · have him : 0 < waveIm s x := by
      rcases Nat.eq_zero_or_pos (waveIm s x) with h0 | hpos
      · exfalso
        rw [h0] at hc
        push_neg at hc
        have hle := le_trans (le_max_left (s.nx - 0 + 1) (0 + 2)) hc
        omega
      · exact hpos
    rw [wave_snd_of_pos sq s x him]
    simp [hc]

/-- The weighted Simpson core rewritten as a sum over panels of three
consecutive samples. -/
theorem simpson_core_sum (y : ℕ → K) (k : ℕ) (h : K) :
    h * ((∑ j ∈ Finset.range k, y (2*j) + 4 * ∑ j ∈ Finset.range k, y (2*j+1)
      + ∑ j ∈ Finset.range k, y (2*j+2))/3)
      = ∑ j ∈ Finset.range k, h*(y (2*j) + 4*y (2*j+1) + y (2*j+2))/3 := by
  rw [eq_comm]
  have e1 : ∑ j ∈ Finset.range k, h*(y (2*j) + 4*y (2*j+1) + y (2*j+2))/3
      = ∑ j ∈ Finset.range k,
        ((h/3) * y (2*j) + (4*h/3) * y (2*j+1) + (h/3) * y (2*j+2)) :=
    Finset.sum_congr rfl (fun j _ => by ring)
  rw [e1, Finset.sum_add_distrib, Finset.sum_add_distrib,
    ← Finset.mul_sum, ← Finset.mul_sum, ← Finset.mul_sum]
  ring

/-- Simpson on an odd sample count 2k+1 is exactly the composite sum of
the k three-point panels. -/
theorem simpson_odd_sum (y : ℕ → K) (k : ℕ) (h : K) :
    simpson y (2*k+1) h =
      ∑ j ∈ Finset.range k, h*(y (2*j) + 4*y (2*j+1) + y (2*j+2))/3 := by
  have hn : (2*k+1) - 1 = 2*k := by omega
  have hdiv : (2*k) / 2 = k := by omega
  simp only [simpson, hn, hdiv]
  rw [if_neg (by omega)]
  exact simpson_core_sum y k h

/-- Simpson on an even sample count 2k+2 is the composite sum of the
first k panels plus the three-point endpoint correction of the final
slice. -/
theorem simpson_even_sum (y : ℕ → K) (k : ℕ) (h : K) :
    simpson y (2*k+2) h =
      (∑ j ∈ Finset.range k, h*(y (2*j) + 4*y (2*j+1) + y (2*j+2))/3)
      + h*(5*y (2*k+1) + 8*y (2*k) - y (2*k-1))/12 := by
  have hn : (2*k+2) - 1 = 2*k+1 := by omega
  have hdiv : (2*k+1) / 2 = k := by omega
  have hn1 : (2*k+1) - 1 = 2*k := by omega
  have hn2 : (2*k+1) - 2 = 2*k-1 := by omega
  simp only [simpson, hn, hdiv, hn1, hn2]
  rw [if_pos (by omega), mul_add, simpson_core_sum y k h]
  ring

/-- A single 1-4-1 Simpson panel integrates a cubic exactly over its two
slices. -/
theorem simpson_panel (a b c d t h : K) :
    h*(cubicEval a b c d t + 4*cubicEval a b c d (t+h)
      + cubicEval a b c d (t+2*h))/3
      = cubicPrim a b c d (t+2*h) - cubicPrim a b c d t := by
  simp only [cubicEval, cubicPrim]
  ring

/-- The three-point endpoint correction integrates a quadratic exactly
over the final slice. -/
theorem correction_exact_quadratic (a b c t h : K) :
    h*(5*cubicEval a b c 0 (t+h) + 8*cubicEval a b c 0 t
      - cubicEval a b c 0 (t-h))/12
      = cubicPrim a b c 0 (t+h) - cubicPrim a b c 0 t := by
  simp only [cubicEval, cubicPrim]
  ring

/-- The sum of the k Simpson panels of a sampled cubic telescopes to the
exact integral over the first 2k slices. -/
theorem cubic_panels_sum (a b c d x0 h : K) (k : ℕ) :
    ∑ j ∈ Finset.range k,
      h*(cubicEval a b c d (x0 + ((2*j : ℕ):K)*h)
        + 4*cubicEval a b c d (x0 + ((2*j+1 : ℕ):K)*h)
        + cubicEval a b c d (x0 + ((2*j+2 : ℕ):K)*h))/3
      = cubicPrim a b c d (x0 + 2*(k:K)*h) - cubicPrim a b c d x0 := by
  have key : ∀ j : ℕ,
      h*(cubicEval a b c d (x0 + ((2*j : ℕ):K)*h)
        + 4*cubicEval a b c d (x0 + ((2*j+1 : ℕ):K)*h)
        + cubicEval a b c d (x0 + ((2*j+2 : ℕ):K)*h))/3
      = cubicPrim a b c d (x0 + 2*((j:K)+1)*h)
        - cubicPrim a b c d (x0 + 2*(j:K)*h) := by
    intro j
    have h0 : x0 + ((2*j : ℕ):K)*h = x0 + 2*(j:K)*h := by push_cast; ring
    have h1 : x0 + ((2*j+1 : ℕ):K)*h = (x0 + 2*(j:K)*h) + h := by
      push_cast; ring
    have h2 : x0 + ((2*j+2 : ℕ):K)*h = (x0 + 2*(j:K)*h) + 2*h := by
      push_cast; ring
    rw [h0, h1, h2, simpson_panel]
    rw [show (x0 + 2*(j:K)*h) + 2*h = x0 + 2*((j:K)+1)*h from by ring]
  have tele := Finset.sum_range_sub
    (fun j : ℕ => cubicPrim a b c d (x0 + 2*(j:K)*h)) k
  calc ∑ j ∈ Finset.range k,
      h*(cubicEval a b c d (x0 + ((2*j : ℕ):K)*h)
        + 4*cubicEval a b c d (x0 + ((2*j+1 : ℕ):K)*h)
        + cubicEval a b c d (x0 + ((2*j+2 : ℕ):K)*h))/3
      = ∑ j ∈ Finset.range k,
        (cubicPrim a b c d (x0 + 2*(((j+1 : ℕ)):K)*h)
          - cubicPrim a b c d (x0 + 2*(j:K)*h)) := by
        refine Finset.sum_congr rfl (fun j _ => ?_)
        rw [key j]
        push_cast
        ring_nf
    _ = cubicPrim a b c d (x0 + 2*(k:K)*h) - cubicPrim a b c d x0 := by
        rw [tele]
        norm_num

/-- C6 (amended): simpson integrates a sampled polynomial of degree at
most 3 exactly when the total sample count 2k+1 is odd; when the sample
count 2k+2 is even the endpoint-corrected rule is exact for degree at
most 2 (and can fail on degree 3). -/
theorem simpson_degree_exactness (a b c d x0 h : K) (k : ℕ) (hk : 1 ≤ k) :
    (simpson (fun j => cubicEval a b c d (x0 + (j:K)*h)) (2*k+1) h =
      cubicIntegral a b c d x0 (x0 + 2*(k:K)*h)) ∧
    (simpson (fun j => cubicEval a b c 0 (x0 + (j:K)*h)) (2*k+2) h =
      cubicIntegral a b c 0 x0 (x0 + (2*(k:K)+1)*h)) := by
  constructor
  · simp only [simpson_odd_sum]
    rw [cubicIntegral]
    exact cubic_panels_sum a b c d x0 h k
  · simp only [simpson_even_sum]
    rw [cubic_panels_sum a b c 0 x0 h k]
    have c3 : ((2*k-1 : ℕ):K) = 2*(k:K) - 1 := by
      rw [Nat.cast_sub (by omega : 1 ≤ 2*k)]
      push_cast
      ring
    have a1 : x0 + ((2*k+1 : ℕ):K)*h = (x0 + 2*(k:K)*h) + h := by
      push_cast; ring
    have a2 : x0 + ((2*k : ℕ):K)*h = x0 + 2*(k:K)*h := by
      push_cast; ring
    have a3 : x0 + ((2*k-1 : ℕ):K)*h = (x0 + 2*(k:K)*h) - h := by
      rw [c3]; ring
    rw [a1, a2, a3, correction_exact_quadratic]
    rw [cubicIntegral, show (x0 + 2*(k:K)*h) + h = x0 + (2*(k:K)+1)*h
      from by ring]
    ring

/-- C6 counterexample: on an even sample count (4 samples of the cubic
x^3 on grid 0,1,2,3 with step 1) simpson returns 41/2 while the exact
integral over the sampled range is 81/4. -/
theorem simpson_cubic_counterexample :
    simpson (fun j => cubicEval (0:ℚ) 0 0 1 (0 + (j:ℚ)*1)) (2*1+2) 1 ≠
      cubicIntegral (0:ℚ) 0 0 1 0 (0 + (2*(1:ℚ)+1)*1) := by
  have hs : simpson (fun j => cubicEval (0:ℚ) 0 0 1 (0 + (j:ℚ)*1))
      (2*1+2) 1 = 41/2 := by
    rw [simpson_even_sum (fun j => cubicEval (0:ℚ) 0 0 1 (0 + (j:ℚ)*1)) 1 1]
    norm_num [cubicEval]
  have hi : cubicIntegral (0:ℚ) 0 0 1 0 (0 + (2*(1:ℚ)+1)*1) = 81/4 := by
    norm_num [cubicIntegral, cubicPrim]
  rw [hs, hi]
  norm_num

/-- Witness for the amended C6 at a concrete instance. -/
theorem simpson_degree_exactness_witness :
    (simpson (fun j => cubicEval (1:ℚ) 2 3 4 (5 + (j:ℚ)*(1/2))) (2*1+1)
        (1/2) = cubicIntegral 1 2 3 4 5 (5 + 2*((1:ℕ):ℚ)*(1/2))) ∧
    (simpson (fun j => cubicEval (1:ℚ) 2 3 0 (5 + (j:ℚ)*(1/2))) (2*1+2)
        (1/2) = cubicIntegral 1 2 3 0 5 (5 + (2*((1:ℕ):ℚ)+1)*(1/2))) :=
  simpson_degree_exactness 1 2 3 4 5 (1/2) 1 (le_refl 1)

/-- Simpson is linear in its samples: a common factor of the samples
scales the quadrature value. -/
theorem simpson_smul (y : ℕ → K) (len : ℕ) (h c : K) :
    simpson (fun j => c * y j) len h = c * simpson y len h := by
  simp only [simpson]
  rw [← Finset.mul_sum, ← Finset.mul_sum, ← Finset.mul_sum]
  split_ifs <;> ring

/-- C1: after every successful wave evaluation (positive matching index
and positive pre-normalization squared integral sum0), the stored
wavefunction satisfies simpson(u^2, h) = 1 exactly, by linearity of
simpson in its samples. -/
theorem wave_normalizes (s : SolverState ℝ) (e : ℝ)
    (him : 0 < waveIm s e) (hsum : 0 < waveSum0 s e) :
    simpson (fun j => (((wave Real.sqrt s e).2).u j)^2) s.nx s.h = 1 := by
  have hu : ((wave Real.sqrt s e).2).u = waveUFinal Real.sqrt s e := by
    rw [wave_snd_of_pos Real.sqrt s e him]
  rw [hu]
  have hsq : ∀ j, (waveUFinal Real.sqrt s e j)^2
      = (1 / waveSum0 s e) * (waveStitched s e j)^2 := by
    intro j
    unfold waveUFinal
    rw [div_pow, Real.sq_sqrt hsum.le]
    ring
  calc simpson (fun j => (waveUFinal Real.sqrt s e j)^2) s.nx s.h
      = simpson (fun j => (1 / waveSum0 s e) * (waveStitched s e j)^2)
          s.nx s.h :=
        congrArg (fun y => simpson y s.nx s.h) (funext hsq)
    _ = (1 / waveSum0 s e)
        * simpson (fun j => (waveStitched s e j)^2) s.nx s.h :=
        simpson_smul (fun j => (waveStitched s e j)^2) s.nx s.h
          (1 / waveSum0 s e)
    _ = (1 / waveSum0 s e) * waveSum0 s e := by rw [← waveSum0]
    _ = 1 := by field_simp

/-- A concrete potential table state over the reals on three grid points
with spacing 1 and values -1, -1, 1; at energy 0 the turning-point scan
matches at index 1 and the stitched wavefunction is 0, 1/100, 0. -/
def exState3 : SolverState ℝ :=
  { V_array := fun i => if i ≤ 1 then -1 else 1
    x_array := fun i => (i : ℝ)
    nx := 3
    h := 1
    ul := fun _ => 0
    ur := fun _ => 0
    ql := fun _ => 0
    qr := fun _ => 0
    u := fun _ => 0 }

/-- The matching index of the concrete real state at energy 0 is 1. -/
theorem exState3_im : waveIm exState3 0 = 1 := by
  have h0 : waveQl exState3 0 0 = 2 := by norm_num [waveQl, exState3]
  have h1 : waveQl exState3 0 1 = 2 := by norm_num [waveQl, exState3]
  have h2 : waveQl exState3 0 2 = -2 := by norm_num [waveQl, exState3]
  show scanIm (waveQl exState3 0) exState3.nx = 1
  apply scanIm_eq_of
  · show 1 < exState3.nx - 1
    norm_num [exState3]
  · rw [show (1:ℕ)+1 = 2 from rfl, h1, h2]
    norm_num
  · intro k hk
    interval_cases k
    rw [show (0:ℕ)+1 = 1 from rfl, h0, h1]
    norm_num

/-- The stitched wavefunction of the concrete real state vanishes at
index 0. -/
theorem exState3_st0 : waveStitched exState3 0 0 = 0 := by
  have hul : waveUl0 exState3 0 0 = 0 := rfl
  simp only [waveStitched, exState3_im]
  norm_num [hul]

/-- The stitched wavefunction of the concrete real state is 1/100 at
index 1. -/
theorem exState3_st1 : waveStitched exState3 0 1 = 1/100 := by
  have hur : waveUr0 exState3 0 1 = 1/100 := rfl
  have hnx : exState3.nx = 3 := rfl
  simp only [waveStitched, exState3_im, hnx]
  norm_num [hur]

/-- The stitched wavefunction of the concrete real state vanishes at
index 2. -/
theorem exState3_st2 : waveStitched exState3 0 2 = 0 := by
  have hur : waveUr0 exState3 0 0 = 0 := rfl
  have hnx : exState3.nx = 3 := rfl
  simp only [waveStitched, exState3_im, hnx]
  norm_num [hur]

/-- The pre-normalization squared integral of the concrete real state at
energy 0 is 1/7500. -/
theorem exState3_sum0 : waveSum0 exState3 0 = 1/7500 := by
  have hnx : exState3.nx = 2*1+1 := rfl
  have hh : exState3.h = (1:ℝ) := rfl
  simp only [waveSum0, hnx, hh, simpson_odd_sum]
  rw [Finset.sum_range_one]
  norm_num [exState3_st0, exState3_st1, exState3_st2]

/-- Witness for C1 at a concrete instance. -/
theorem wave_normalizes_witness :
    0 < waveIm exState3 0 ∧ 0 < waveSum0 exState3 0 ∧
    simpson (fun j => (((wave Real.sqrt exState3 0).2).u j)^2)
      exState3.nx exState3.h = 1 := by
  have him : 0 < waveIm exState3 0 := by rw [exState3_im]; norm_num
  have hsum : 0 < waveSum0 exState3 0 := by rw [exState3_sum0]; norm_num
  exact ⟨him, hsum, wave_normalizes exState3 0 him hsum⟩

/-- C7 (amended): on a successful trial the rescaling factor
ratio = ur[nr-2]/ul[im] is applied to the two left-branch entries
ul[nl-1] and ul[nl-3] only, every other entry of ul keeps its
pre-rescale value, the stitched wavefunction carries ratio times the
pre-rescale left branch below the matching index, and at the matching
index it carries ur[nr-2], which equals ratio times the pre-rescale
ul[im] whenever ul[im] is nonzero. -/
theorem wave_rescale_spec (sq : K → K) (s : SolverState K) (e : K)
    (him : 0 < waveIm s e) :
    ((wave sq s e).2.ul (waveIm s e + 2 - 1) =
      waveScale s e * waveUl0 s e (waveIm s e + 2 - 1)) ∧
    ((wave sq s e).2.ul (waveIm s e + 2 - 3) =
      waveScale s e * waveUl0 s e (waveIm s e + 2 - 3)) ∧
    (∀ j, j ≠ waveIm s e + 2 - 1 → j ≠ waveIm s e + 2 - 3 →
      (wave sq s e).2.ul j = waveUl0 s e j) ∧
    (∀ j, j < waveIm s e →
      waveStitched s e j = waveScale s e * waveUl0 s e j) ∧
    (waveStitched s e (waveIm s e) =
      waveUr0 s e (s.nx - waveIm s e + 1 - 2)) ∧
    (waveUl0 s e (waveIm s e) ≠ 0 →
      waveStitched s e (waveIm s e) =
        waveScale s e * waveUl0 s e (waveIm s e)) := by
  have hul : (wave sq s e).2.ul = waveUlPost s e := by
    rw [wave_snd_of_pos sq s e him]
  have him_lt : waveIm s e < s.nx := by
    have := waveIm_le s e
    omega
  have hmid : waveStitched s e (waveIm s e) =
      waveUr0 s e (s.nx - waveIm s e + 1 - 2) := by
    simp only [waveStitched]
    rw [if_neg (lt_irrefl _)]
    rw [if_pos (by omega), Nat.sub_self, Nat.sub_zero]
  refine ⟨?_, ?_, ?_, ?_, hmid, ?_⟩
  · rw [hul]
    simp [waveUlPost]
  · rw [hul]
    simp [waveUlPost]
  · intro j hj1 hj3
    rw [hul]
    simp only [waveUlPost]
    rw [if_neg (not_or.mpr ⟨hj1, hj3⟩)]
  · intro j hj
    simp only [waveStitched]
    rw [if_pos hj]
  · intro hne
    rw [hmid, waveScale, div_mul_cancel₀ _ hne]

/-- The matching index of the concrete four-point state at energy 0
is 1. -/
theorem exState4_im : waveIm exState4 0 = 1 := by
  have h0 : waveQl exState4 0 0 = 2 := by norm_num [waveQl, exState4]
  have h1 : waveQl exState4 0 1 = 2 := by norm_num [waveQl, exState4]
  have h2 : waveQl exState4 0 2 = -2 := by norm_num [waveQl, exState4]
  show scanIm (waveQl exState4 0) exState4.nx = 1
  apply scanIm_eq_of
  · show 1 < exState4.nx - 1
    norm_num [exState4]
  · rw [show (1:ℕ)+1 = 2 from rfl, h1, h2]
    norm_num
  · intro k hk
    interval_cases k
    rw [show (0:ℕ)+1 = 1 from rfl, h0, h1]
    norm_num

/-- The rescaling factor of the concrete four-point state at energy 0
is 22/7. -/
theorem exState4_scale : waveScale exState4 0 = 22/7 := by
  have hqr0 : waveQr exState4 0 0 = -2 := by norm_num [waveQr, waveQl, exState4]
  have hqr1 : waveQr exState4 0 1 = -2 := by norm_num [waveQr, waveQl, exState4]
  have hqr2 : waveQr exState4 0 2 = 2 := by norm_num [waveQr, waveQl, exState4]
  have hh : exState4.h = (1:ℚ) := rfl
  have hur2 : waveUr0 exState4 0 2 = 11/350 := by
    show numerovFun exState4.h (waveQr exState4 0) (fun _ => 0) 0 (1/100) (0+2)
      = 11/350
    rw [numerovFun_add_two]
    norm_num [numerovFun_zero, numerovFun_one, hqr0, hqr1, hqr2, hh]
  have hul1 : waveUl0 exState4 0 1 = 1/100 := rfl
  have hnx : exState4.nx = 4 := rfl
  simp only [waveScale, exState4_im, hnx]
  norm_num [hur2, hul1]

/-- C7 counterexample: on the concrete four-point state at energy 0 the
post-wave left branch at the matching index 1 keeps its pre-rescale
value 1/100 and is not the ratio 22/7 times that value, so the ratio is
not applied to the whole left branch. -/
theorem wave_rescale_counterexample :
    (wave (fun x => x) exState4 0).2.ul 1 ≠
      waveScale exState4 0 * waveUl0 exState4 0 1 := by
  have him : 0 < waveIm exState4 0 := by rw [exState4_im]; norm_num
  have hul : (wave (fun x => x) exState4 0).2.ul = waveUlPost exState4 0 := by
    rw [wave_snd_of_pos (fun x => x) exState4 0 him]
  have hul1 : waveUl0 exState4 0 1 = 1/100 := rfl
  have hpost : waveUlPost exState4 0 1 = 1/100 := by
    simp only [waveUlPost, exState4_im]
    norm_num [hul1]
  rw [hul, hpost, exState4_scale, hul1]
  norm_num

/-- Witness for the amended C7 at a concrete instance. -/
theorem wave_rescale_spec_witness :
    ((wave (fun x => x) exState4 0).2.ul (waveIm exState4 0 + 2 - 1) =
      waveScale exState4 0 * waveUl0 exState4 0 (waveIm exState4 0 + 2 - 1)) ∧
    ((wave (fun x => x) exState4 0).2.ul (waveIm exState4 0 + 2 - 3) =
      waveScale exState4 0 * waveUl0 exState4 0 (waveIm exState4 0 + 2 - 3)) ∧
    (∀ j, j ≠ waveIm exState4 0 + 2 - 1 → j ≠ waveIm exState4 0 + 2 - 3 →
      (wave (fun x => x) exState4 0).2.ul j = waveUl0 exState4 0 j) ∧
    (∀ j, j < waveIm exState4 0 →
      waveStitched exState4 0 j =
        waveScale exState4 0 * waveUl0 exState4 0 j) ∧
    (waveStitched exState4 0 (waveIm exState4 0) =
      waveUr0 exState4 0 (exState4.nx - waveIm exState4 0 + 1 - 2)) ∧
    (waveUl0 exState4 0 (waveIm exState4 0) ≠ 0 →
      waveStitched exState4 0 (waveIm exState4 0) =
        waveScale exState4 0 * waveUl0 exState4 0 (waveIm exState4 0)) :=
  wave_rescale_spec (fun x => x) exState4 0
    (by rw [exState4_im]; norm_num)
